import Mathlib

/-!
# The `co` driver of `typicalCase/es6-generator/14-co.js`

A shallow embedding of the generator-driving code of `14-co.js`: the `co`
function (lines 93-131), the hand-written executor `run` (lines 68-80) and
the manual nested-`then` execution (lines 60-65).

JavaScript values are a first-order datatype `Val`.  A generator object is a
deterministic state machine (`Routine`).  A promise carries the outcome it
settles with and the tick at which it settles, so `value.then(f, r)` is
modelled by handing that outcome to `f` or `r`.  What the functions do is
recorded as a list of `Event`s, in the order in which the calls happen.
-/

namespace Co

/-! ## Values -/

/-- JavaScript values.  `fulfilled t v`, `rejected t e` and `pending` are
promises: one that fulfils with `v` at tick `t`, one that rejects with `e` at
tick `t`, one that never settles.  `obj fields` is a plain object with the own
properties `fields` (the first entry with a key is the property of that name).
`fn k` is a function, a value whose `typeof` is `'function'`, without
properties of its own; `iter k` is a generator object. -/
inductive Val where
  | undefined
  | null
  | bool (b : Bool)
  | num (n : Int)
  | str (s : String)
  | typeError (msg : String)
  | arr (items : List Val)
  | obj (fields : List (String × Val))
  | fulfilled (t : Nat) (v : Val)
  | rejected (t : Nat) (e : Val)
  | pending
  | fn (k : Nat)
  | iter (k : Nat)

/-- The test `typeof v === 'function'`. -/
def isFunction : Val → Bool
  | .fn _ => true
  | _ => false

/-- The test `typeof v.next === 'function'`, for a `v` on which the property can
be read: a generator object has the method, a plain object has it when its
property `next` is a function. -/
def hasCallableNext : Val → Bool
  | .iter _ => true
  | .obj fields =>
    match fields.lookup "next" with
    | some (.fn _) => true
    | _ => false
  | _ => false

/-- JavaScript truthiness (`!v` is its negation). -/
def truthy : Val → Bool
  | .undefined => false
  | .null => false
  | .bool b => b
  | .num n => n != 0
  | .str s => s != ""
  | _ => true

/-- What a subscription `p.then(onFulfilled, onRejected)` delivers. -/
inductive Outcome where
  | fulfilled (v : Val)
  | rejected (e : Val)
  | pending

/-- The object `ret` that `gen.next(v)` returns, as `co` reads it: `ret.done`
falsy and `ret.value` the value `v`, together with the state the object is now
suspended in, or `ret.done` truthy and `ret.value` the value `v`. -/
inductive IterResult (σ : Type) where
  | yield (v : Val) (s : σ)
  | done (v : Val)

/-- An object with a callable `next` method, a generator object or any other
iterator: the state it is suspended in and its `next` method, which returns an
object (`IterResult`) or raises an exception (`Except.error`). -/
structure Routine where
  σ : Type
  init : σ
  next : σ → Val → Except Val (IterResult σ)

/-- The functions and objects of a program and the platform they run on:
`call k this args` is the result of calling function `k`; `routine k` is the
generator object `iter k`; `iterator k` is the object whose `next` method is
function `k`; `string v` is the platform's `String(v)`; `noThen v` is the error
the engine raises for `v.then(...)` when `v` has no `then` method.  Function
calls are taken to return a value. -/
structure World where
  call : Nat → Val → List Val → Val
  routine : Nat → Routine
  iterator : Nat → Routine
  string : Val → String
  noThen : Val → Val

/-- The helpers `co` calls that `14-co.js` does not define: `toPromise` (called
with `this = ctx`), `isPromise`, and the `then` method of the values
`isPromise` accepts. -/
structure Env where
  toPromise : Val → Val → Val
  isPromise : Val → Bool
  settle : Val → Outcome

/-! ## What the code does, as a list of calls -/

/-- The calls made while `co`, `run` or the manual execution is at work, and the
exceptions those calls raise. -/
inductive Event where
  /-- The call `gen.call(ctx)`: function `k` called with `this` and the argument list -/
  | call (k : Nat) (this : Val) (args : List Val)
  /-- The call `gen.next(v)` -/
  | resume (v : Val)
  /-- The call `toPromise.call(ctx, v)` -/
  | normalise (v : Val)
  /-- The call `value.then(...)` on the promise `p` -/
  | subscribe (p : Val)
  /-- The call `resolve(v)` -/
  | resolve (v : Val)
  /-- The call `reject(e)` -/
  | reject (e : Val)
  /-- The call just made raised the exception `e` -/
  | threw (e : Val)

/-- The calls made so far, and whether the fuel ran out before the run came to
rest (a run is at rest when no callback is left to be called). -/
structure Run where
  events : List Event
  cut : Bool

/-- Put one more call in front of a run. -/
def Run.push (e : Event) (r : Run) : Run := ⟨e :: r.events, r.cut⟩

/-- A run that is at rest after the calls `es`. -/
def Run.rest (es : List Event) : Run := ⟨es, false⟩

/-- A run whose fuel ran out. -/
def Run.outOfFuel : Run := ⟨[], true⟩

/-! ## `co` (lines 93-131) -/

/-- Modelled from the spec: `onRejected(err)`, which `14-co.js` calls (lines 117
and 120) but does not define.  The file never calls `gen.throw`: its routines
are driven without error injection, the case of which section 4.3 step 5 and
section 7 (`InjectionUnsupported`) say: produce the completion signal as
failure with that error and stop.  Step 4 and the comment of line 119 say the
same of the call of line 120. -/
def onRejected (err : Val) : Run := Run.rest [.reject err]

/-- The function `next(ret)`, lines 109-128, with the callback it hands on passed
in: `onF s v` is `onFulfilled(v)` with the generator suspended in state `s`. -/
def next {σ : Type} (W : World) (env : Env) (ctx : Val)
    (onF : σ → Val → Run) : IterResult σ → Run
  | .done v => Run.rest [.resolve v]
  | .yield v s =>
    let value := env.toPromise ctx v
    if truthy value && env.isPromise value then
      Run.push (.normalise v) (Run.push (.subscribe value)
        (match env.settle value with
          | .fulfilled r => onF s r
          | .rejected e => onRejected e
          | .pending => Run.rest []))
    else
      Run.push (.normalise v) (onRejected (.typeError
        ("You may only yield a function, promise, generator, array, or object, "
          ++ "but the following object was passed: \""
          ++ W.string v
          ++ "\"")))

/-- The function `onFulfilled(res)`, lines 100-129, with the generator suspended
in `s`. -/
def onFulfilled (W : World) (env : Env) (ctx : Val) (g : Routine) :
    Nat → g.σ → Val → Run
  | 0, _, _ => Run.outOfFuel
  | fuel + 1, s, res =>
    match g.next s res with
    | .error e => Run.rest [.resume res, .threw e, .reject e]
    | .ok ret => Run.push (.resume res) (next W env ctx (onFulfilled W env ctx g fuel) ret)

/-- The value of `gen` after line 96: a function is called with `this = ctx`
and no arguments. -/
def instantiate (W : World) (ctx : Val) (gen : Val) : Val :=
  match gen with
  | .fn k => W.call k ctx []
  | v => v

/-- The object behind `gen.next`, for a `gen` with a callable `next` method. -/
def routineOf (W : World) : Val → Option Routine
  | .iter k => some (W.routine k)
  | .obj fields =>
    match fields.lookup "next" with
    | some (.fn k) => some (W.iterator k)
    | _ => none
  | _ => none

/-- The call `co.call(ctx, ...args)`, lines 93-131.  `co` declares the single parameter
`gen`, bound to the first argument (or `undefined`). -/
def co (W : World) (env : Env) (fuel : Nat) (ctx : Val) (args : List Val) : Run :=
  let gen := args.headD .undefined
  let called : List Event :=
    match gen with
    | .fn k => [.call k ctx []]
    | _ => []
  let gen := instantiate W ctx gen
  if !truthy gen || !hasCallableNext gen then ⟨called ++ [.resolve gen], false⟩
  else
    match routineOf W gen with
    | some g =>
      let r := onFulfilled W env ctx g fuel g.init .undefined
      ⟨called ++ r.events, r.cut⟩
    | none => ⟨called, false⟩

/-! ## The hand-written executors (lines 60-80) -/

/-- The `then` method of `v`: `none` when `v` has none, otherwise what a
callback registered with it is given.  Promises are the values with a `then`
method. -/
def thenOf : Val → Option Outcome
  | .fulfilled _ v => some (.fulfilled v)
  | .rejected _ e => some (.rejected e)
  | .pending => some .pending
  | _ => none

/-- The call `g.next(data)` on the generator object `g` whose state is `st` (`none`: it
has run to completion): the result and the state afterwards.  A completed
generator answers `{done: true, value: undefined}`. -/
def genNext (g : Routine) (st : Option g.σ) (data : Val) :
    Except Val (Bool × Val) × Option g.σ :=
  match st with
  | none => (.ok (true, .undefined), none)
  | some s =>
    match g.next s data with
    | .error e => (.error e, none)
    | .ok (.done v) => (.ok (true, v), none)
    | .ok (.yield v s1) => (.ok (false, v), some s1)

/-- The function `next(data)` of `run`, lines 71-77, on the generator object `g = gen()`
whose state is `st`: the calls made and the state `g` is left in. -/
def runNext (W : World) (g : Routine) : Nat → Option g.σ → Val → Run × Option g.σ
  | 0, st, _ => (Run.outOfFuel, st)
  | fuel + 1, st, data =>
    match genNext g st data with
    | (.error e, st1) => (Run.rest [.resume data, .threw e], st1)
    | (.ok (true, _), st1) => (Run.rest [.resume data], st1)
    | (.ok (false, value), st1) =>
      match thenOf value with
      | none => (Run.rest [.resume data, .threw (W.noThen value)], st1)
      | some (.fulfilled d) =>
        ((runNext W g fuel st1 d).1.push (.subscribe value) |>.push (.resume data),
          (runNext W g fuel st1 d).2)
      | some _ => (Run.rest [.resume data, .subscribe value], st1)

/-- The function `run(gen)`, lines 68-80, from the generator object `g = gen()` on: `next()`. -/
def run (W : World) (g : Routine) (fuel : Nat) : Run × Option g.σ :=
  runNext W g fuel (some g.init) .undefined

/-- The manual execution of lines 60-65, from the generator object `g = gen()`
on: `g.next().value.then(d => g.next(d).value.then(d => g.next(d)))`. -/
def manual (W : World) (g : Routine) : Run × Option g.σ :=
  match genNext g (some g.init) .undefined with
  | (.error e, st1) => (Run.rest [.resume .undefined, .threw e], st1)
  | (.ok (_, value1), st1) =>
    match thenOf value1 with
    | none => (Run.rest [.resume .undefined, .threw (W.noThen value1)], st1)
    | some (.fulfilled d1) =>
      match genNext g st1 d1 with
      | (.error e, st2) =>
        (Run.rest [.resume .undefined, .subscribe value1, .resume d1, .threw e], st2)
      | (.ok (_, value2), st2) =>
        match thenOf value2 with
        | none =>
          (Run.rest [.resume .undefined, .subscribe value1, .resume d1,
            .threw (W.noThen value2)], st2)
        | some (.fulfilled d2) =>
          match genNext g st2 d2 with
          | (.error e, st3) =>
            (Run.rest [.resume .undefined, .subscribe value1, .resume d1,
              .subscribe value2, .resume d2, .threw e], st3)
          | (.ok _, st3) =>
            (Run.rest [.resume .undefined, .subscribe value1, .resume d1,
              .subscribe value2, .resume d2], st3)
        | some _ =>
          (Run.rest [.resume .undefined, .subscribe value1, .resume d1,
            .subscribe value2], st2)
    | some _ => (Run.rest [.resume .undefined, .subscribe value1], st1)

/-! ## The awaitable normaliser (spec section 4.2) -/

/-- Modelled from the spec: `isPromise`, which `14-co.js` calls but does not
define.  Section 6: a single-resolution future is an object exposing a way to
register success/failure callbacks. -/
def isPromise (v : Val) : Bool := (thenOf v).isSome

/-- Modelled from the spec: the `then` method of a single-resolution future,
which delivers its one resolution (section 3, Unified Awaitable). -/
def settle (v : Val) : Outcome := (thenOf v).getD .pending

/-- The member of an aggregate that fails first: the earliest tick wins, and
among members failing at the same tick the one subscribed to first. -/
def firstFailure : List Val → Option (Nat × Val)
  | [] => none
  | .rejected t e :: ms =>
    match firstFailure ms with
    | some (t1, e1) => if t1 < t then some (t1, e1) else some (t, e)
    | none => some (t, e)
  | _ :: ms => firstFailure ms

/-- Whether some member never settles. -/
def anyPending : List Val → Bool
  | [] => false
  | .pending :: _ => true
  | _ :: ms => anyPending ms

/-- The tick at which the last member has fulfilled. -/
def lastTick : List Val → Nat
  | [] => 0
  | .fulfilled t _ :: ms => max t (lastTick ms)
  | _ :: ms => lastTick ms

/-- The value a member contributes to the result of its aggregate. -/
def memberValue : Val → Val
  | .fulfilled _ v => v
  | v => v

/-- Modelled from the spec: the aggregate of the normalised members `ms` of an
ordered sequence (section 3, Aggregate Shape): it succeeds when all members
have succeeded, with the sequence of their values in the positions of the
members; the first failure among the members fails it immediately. -/
def allOf (ms : List Val) : Val :=
  match firstFailure ms with
  | some (t, e) => .rejected t e
  | none =>
    if anyPending ms then .pending
    else .fulfilled (lastTick ms) (.arr (ms.map memberValue))

/-- Modelled from the spec: the aggregate of the normalised members of a keyed
mapping (section 3, Aggregate Shape): as `allOf`, with the keys of the input
and each value replaced by its resolved counterpart. -/
def allKeyed (fs : List (String × Val)) : Val :=
  match firstFailure (fs.map Prod.snd) with
  | some (t, e) => .rejected t e
  | none =>
    if anyPending (fs.map Prod.snd) then .pending
    else .fulfilled (lastTick (fs.map Prod.snd))
      (.obj (fs.map fun f => (f.1, memberValue f.2)))

mutual
/-- Modelled from the spec: `toPromise`, which `14-co.js` calls but does not
define.  Section 4.2, first match wins: (1) a routine or a function is driven
by a nested driver invocation, `nested this v`, whose completion is the
awaitable; (2) a future is returned unchanged; (3) the members of an ordered
sequence are normalised and aggregated; (4) so are the values of a keyed
mapping; (5) any other value is not an awaitable (it is returned as it is, and
`co` raises the `TypeError`). -/
def toPromise (nested : Val → Val → Val) (this : Val) : Val → Val
  | .fn k => nested this (.fn k)
  | .iter k => nested this (.iter k)
  | .fulfilled t v => .fulfilled t v
  | .rejected t e => .rejected t e
  | .pending => .pending
  | .arr items => allOf (toPromiseAll nested this items)
  | .obj fields => allKeyed (toPromiseFields nested this fields)
  | v => v
/-- The members of an ordered sequence, each normalised -/
def toPromiseAll (nested : Val → Val → Val) (this : Val) : List Val → List Val
  | [] => []
  | v :: vs => toPromise nested this v :: toPromiseAll nested this vs
/-- The entries of a keyed mapping, each value normalised -/
def toPromiseFields (nested : Val → Val → Val) (this : Val) :
    List (String × Val) → List (String × Val)
  | [] => []
  | (k, v) :: fs => (k, toPromise nested this v) :: toPromiseFields nested this fs
end

/-- The helpers of `co` as the spec describes them. -/
def specEnv (nested : Val → Val → Val) : Env :=
  ⟨toPromise nested, isPromise, settle⟩

/-! ## Reading a list of calls -/

/-- The completion signal a call of `resolve` or `reject` gives. -/
inductive Completion where
  | success (v : Val)
  | failure (e : Val)

/-- Whether the call is `resolve(v)` or `reject(e)`. -/
def Event.isCompletion : Event → Bool
  | .resolve _ => true
  | .reject _ => true
  | _ => false

/-- The completion signals given, in order. -/
def completions : List Event → List Completion
  | [] => []
  | .resolve v :: es => .success v :: completions es
  | .reject e :: es => .failure e :: completions es
  | _ :: es => completions es

/-- The arguments of the `gen.next` calls, in order. -/
def resumes : List Event → List Val
  | [] => []
  | .resume v :: es => v :: resumes es
  | _ :: es => resumes es

/-- The promises subscribed to, in order. -/
def subscriptions : List Event → List Val
  | [] => []
  | .subscribe p :: es => p :: subscriptions es
  | _ :: es => subscriptions es

/-- The values handed to `toPromise`, in order. -/
def normalisations : List Event → List Val
  | [] => []
  | .normalise v :: es => v :: normalisations es
  | _ :: es => normalisations es

/-- Every exception the routine raises is followed by `reject` of exactly that
exception, and by nothing else. -/
def throwIsFinal : List Event → Prop
  | [] => True
  | .threw e :: post => post = [.reject e]
  | _ :: es => throwIsFinal es

/-- Nothing is called after `resolve` or `reject`. -/
def completionIsFinal : List Event → Prop
  | [] => True
  | e :: es => (e.isCompletion = true → es = []) ∧ completionIsFinal es

/-- Whether `value && isPromise(value)` of line 117 holds of `toPromise(v)`. -/
def awaitable (env : Env) (ctx : Val) (v : Val) : Bool :=
  truthy (env.toPromise ctx v) && env.isPromise (env.toPromise ctx v)

/-- The routine `g`, resumed in state `s` with `res`, yields `n` times a value
that normalises to a promise fulfilling with some `r` (with which it is then
resumed), and then returns `x`. -/
def yieldsThenReturns (env : Env) (ctx : Val) (g : Routine) : Nat → g.σ → Val → Val → Prop
  | 0, s, res, x => g.next s res = .ok (.done x)
  | n + 1, s, res, x =>
    ∃ v s1 r, g.next s res = .ok (.yield v s1) ∧ awaitable env ctx v = true ∧
      env.settle (env.toPromise ctx v) = .fulfilled r ∧ yieldsThenReturns env ctx g n s1 r x

/-- The routine `g`, resumed in state `s` with `res`, comes to an end within `n`
further resumes, and no awaitable it yields on the way stays unsettled: it
returns, or raises an exception, or yields a value that is no awaitable, or
yields an awaitable that fails, or yields an awaitable that succeeds with some
`r` and, resumed with `r`, comes to an end within `n - 1` further resumes. -/
def endsAfter (env : Env) (ctx : Val) (g : Routine) : Nat → g.σ → Val → Prop
  | 0, s, res =>
    match g.next s res with
    | .ok (.yield v _) =>
      awaitable env ctx v = false ∨ ∃ e, env.settle (env.toPromise ctx v) = .rejected e
    | _ => True
  | n + 1, s, res =>
    match g.next s res with
    | .ok (.yield v s1) =>
      awaitable env ctx v = false ∨
        (∃ e, env.settle (env.toPromise ctx v) = .rejected e) ∨
        ∃ r, env.settle (env.toPromise ctx v) = .fulfilled r ∧ endsAfter env ctx g n s1 r
    | _ => True

/-- The values the routine `g` yields when it is resumed in state `s` with
`res` and then, at most `n - 1` times, with the value the awaitable it yielded
last has succeeded with. -/
def yieldedValues (env : Env) (ctx : Val) (g : Routine) : Nat → g.σ → Val → List Val
  | 0, _, _ => []
  | n + 1, s, res =>
    match g.next s res with
    | .ok (.yield v s1) =>
      v :: (if awaitable env ctx v then
        match env.settle (env.toPromise ctx v) with
        | .fulfilled r => yieldedValues env ctx g n s1 r
        | _ => []
      else [])
    | _ => []

/-- The awaitables among `yieldedValues`, normalised. -/
def awaitedPromises (env : Env) (ctx : Val) (g : Routine) : Nat → g.σ → Val → List Val
  | 0, _, _ => []
  | n + 1, s, res =>
    match g.next s res with
    | .ok (.yield v s1) =>
      if awaitable env ctx v then
        env.toPromise ctx v ::
          match env.settle (env.toPromise ctx v) with
          | .fulfilled r => awaitedPromises env ctx g n s1 r
          | _ => []
      else []
    | _ => []

/-- The values the routine `g` is to be resumed with, `n` resumes at most: first
`res`, then, each time the routine has yielded an awaitable that succeeds, the
value that awaitable has succeeded with. -/
def resumeValues (env : Env) (ctx : Val) (g : Routine) : Nat → g.σ → Val → List Val
  | 0, _, _ => []
  | n + 1, s, res =>
    res ::
      match g.next s res with
      | .ok (.yield v s1) =>
        if awaitable env ctx v then
          match env.settle (env.toPromise ctx v) with
          | .fulfilled r => resumeValues env ctx g n s1 r
          | _ => []
        else []
      | _ => []

/-- The call `cur` is the callback of a subscription to `p`: `onFulfilled`
begins with `gen.next(v)`, `onRejected` with `reject(e)`. -/
def answers (env : Env) (p : Val) : Event → Prop
  | .resume v => env.settle p = .fulfilled v
  | .reject e => env.settle p = .rejected e
  | _ => False

/-- Whether `cur` may come directly after `prev`: a subscription is followed by
its callback; `gen.next(v)` comes only after `gen.call` (with `v` undefined) or
as the callback of the subscription just made; a subscription is made only to
the promise `toPromise` has just given. -/
def mayFollow (env : Env) (ctx : Val) : Event → Event → Prop
  | .subscribe p, cur => answers env p cur
  | .call _ _ _, .resume v => v = .undefined
  | .normalise y, .subscribe p => p = env.toPromise ctx y
  | _, .resume _ => False
  | _, .subscribe _ => False
  | _, _ => True

/-- Every call of `es` may follow the one before it, `prev` being the call
before the first. -/
def chained (env : Env) (ctx : Val) : Event → List Event → Prop
  | _, [] => True
  | prev, e :: es => mayFollow env ctx prev e ∧ chained env ctx e es

/-- The calls `es` are strictly sequential: the first is not a subscription and,
if it is `gen.next(v)`, `v` is `undefined`; every later one may follow the one
before it. -/
def sequential (env : Env) (ctx : Val) : List Event → Prop
  | [] => True
  | .resume v :: es => v = .undefined ∧ chained env ctx (.resume v) es
  | .subscribe _ :: _ => False
  | e :: es => chained env ctx e es

/-- Member `i` of `ms` fails, with `e` at tick `t`, and it is the member that
fails first: every failing member fails at a later tick, or at the same tick
and is not before it in the sequence. -/
def failsFirst (ms : List Val) (i t : Nat) (e : Val) : Prop :=
  ms[i]? = some (.rejected t e) ∧
    ∀ j t1 e1, ms[j]? = some (.rejected t1 e1) → t < t1 ∨ (t = t1 ∧ i ≤ j)

/-- Whether the value is an ordered sequence or a keyed mapping. -/
def isAggregate : Val → Bool
  | .arr _ => true
  | .obj _ => true
  | _ => false

/-- The members of an aggregate, in order. -/
def members : Val → List Val
  | .arr items => items
  | .obj fields => fields.map Prod.snd
  | _ => []

/-- The aggregate `shape` with its members replaced, position by position, by
`vs`: an ordered sequence becomes the sequence `vs`, a keyed mapping keeps its
keys. -/
def mirror (shape : Val) (vs : List Val) : Val :=
  match shape with
  | .arr _ => .arr vs
  | .obj fields => .obj (List.zipWith (fun f v => (f.1, v)) fields vs)
  | v => v

/-! ## Sample programs -/

/-- The generator of lines 52-57, with the two files read at ticks 3 and 1:
`function* () { var f1 = yield readFile(..); var f2 = yield readFile(..); .. }` -/
def twoReads : Routine where
  σ := Nat
  init := 0
  next := fun s _ =>
    match s with
    | 0 => .ok (.yield (.fulfilled 3 (.str "fstab")) 1)
    | 1 => .ok (.yield (.fulfilled 1 (.str "shells")) 2)
    | _ => .ok (.done .undefined)

/-- The generator of lines 52-57 when the second file cannot be read. -/
def secondReadFails : Routine where
  σ := Nat
  init := 0
  next := fun s _ =>
    match s with
    | 0 => .ok (.yield (.fulfilled 3 (.str "fstab")) 1)
    | 1 => .ok (.yield (.rejected 1 (.str "ENOENT")) 2)
    | _ => .ok (.done .undefined)

/-- The generator object of `function* () { throw 'bad' }`. -/
def throwsAtOnce : Routine where
  σ := Unit
  init := ()
  next := fun _ _ => .error (.str "bad")

/-- An iterator whose `next` always answers `{done: false, value: v}`. -/
def yieldsForever (v : Val) : Routine where
  σ := Unit
  init := ()
  next := fun _ _ => .ok (.yield v ())

/-- The generator object of `function* () { return v }`. -/
def returnsAtOnce (v : Val) : Routine where
  σ := Unit
  init := ()
  next := fun _ _ => .ok (.done v)

/-- A program whose function `0` is the generator function of `twoReads`, whose
function `1` is `function (a) { return a }`, whose function `2` is
`function* (a) { return a }` (for `a` a natural number or `undefined`; its
generator objects are `iter 9` and `iter (10 + a)`), and whose other generator
objects are the samples above.  Every object with a `next` method of its own
answers `{done: true, value: 'end'}`.  `String` is given for `undefined`,
`null`, booleans, strings, the number 5 and plain objects, the values the
samples may pass to it. -/
def sampleWorld : World where
  call := fun k _ args =>
    match k with
    | 0 => .iter 0
    | 1 => args.headD .undefined
    | _ =>
      match args.headD .undefined with
      | .num n => .iter (10 + n.toNat)
      | _ => .iter 9
  routine := fun k =>
    match k with
    | 0 => twoReads
    | 1 => secondReadFails
    | 2 => yieldsForever .pending
    | 3 => throwsAtOnce
    | 4 => yieldsForever (.num 5)
    | 5 => yieldsForever (.arr [.fulfilled 2 (.num 1), .fulfilled 1 (.num 2)])
    | 6 => yieldsForever (.obj [("a", .fulfilled 2 (.num 1)), ("b", .fulfilled 1 (.num 2))])
    | 7 => yieldsForever (.arr [.fulfilled 0 (.num 1), .rejected 0 (.str "boom")])
    | 8 => yieldsForever (.fulfilled 0 (.num 1))
    | 9 => returnsAtOnce .undefined
    | n + 10 => returnsAtOnce (.num n)
  iterator := fun _ => returnsAtOnce (.str "end")
  string := fun v =>
    match v with
    | .undefined => "undefined"
    | .null => "null"
    | .bool true => "true"
    | .bool false => "false"
    | .num 5 => "5"
    | .str s => s
    | _ => "[object Object]"
  noThen := fun _ => .typeError "then is not a function"

/-- The helpers of `co` as the spec describes them, with nested routines left
undriven. -/
def sampleEnv : Env := specEnv fun _ _ => .pending

/-! ## Theorems -/

theorem push_events (e : Event) (r : Run) : (r.push e).events = e :: r.events := rfl

theorem push_cut (e : Event) (r : Run) : (r.push e).cut = r.cut := rfl

theorem rest_events (es : List Event) : (Run.rest es).events = es := rfl

theorem rest_cut (es : List Event) : (Run.rest es).cut = false := rfl

theorem outOfFuel_events : Run.outOfFuel.events = [] := rfl

theorem onRejected_events (e : Val) : (onRejected e).events = [.reject e] := rfl

theorem onRejected_cut (e : Val) : (onRejected e).cut = false := rfl

/-- A value has a callable `next` exactly when `co` has an object to drive. -/
theorem hasCallableNext_iff (W : World) (v : Val) :
    hasCallableNext v = true ↔ ∃ g, routineOf W v = some g := by
  cases v
  case obj fields =>
    simp only [hasCallableNext, routineOf]
    split <;> simp
  all_goals simp [hasCallableNext, routineOf]

/-- C2: for every `v` that is not a function and is falsy or has no callable
`next`, `co(v)` calls `resolve(v)` at once, whatever the fuel, and makes no
`gen.next` call. -/
theorem co_plain_value_resolves (W : World) (env : Env) (fuel : Nat) (ctx v : Val)
    (more : List Val) (hfn : isFunction v = false)
    (hplain : truthy v = false ∨ hasCallableNext v = false) :
    co W env fuel ctx (v :: more) = ⟨[.resolve v], false⟩ ∧
      resumes (co W env fuel ctx (v :: more)).events = [] := by
  have h : co W env fuel ctx (v :: more) = ⟨[.resolve v], false⟩ := by
    cases v <;> simp_all [co, instantiate, isFunction, truthy, hasCallableNext]
  rw [h]
  exact ⟨rfl, rfl⟩

theorem co_plain_value_resolves_witness :
    isFunction (.obj [("a", .num 1)]) = false ∧
      (truthy (.obj [("a", .num 1)]) = false ∨ hasCallableNext (.obj [("a", .num 1)]) = false) ∧
      co sampleWorld sampleEnv 0 .undefined [.obj [("a", .num 1)]]
        = ⟨[.resolve (.obj [("a", .num 1)])], false⟩ ∧
      resumes (co sampleWorld sampleEnv 0 .undefined [.obj [("a", .num 1)]]).events = [] :=
  ⟨rfl, Or.inr rfl,
    co_plain_value_resolves sampleWorld sampleEnv 0 .undefined (.obj [("a", .num 1)]) []
      rfl (Or.inr rfl)⟩

/-- A plain object whose property `next` is a function is not resolved with: it
passes the test of line 97 and `co` calls its `next`; one whose `next` is not a
function is resolved with. -/
theorem co_object_with_next :
    hasCallableNext (.obj [("next", .fn 1)]) = true ∧
      co sampleWorld sampleEnv 1 .undefined [.obj [("next", .fn 1)]]
        = ⟨[.resume .undefined, .resolve (.str "end")], false⟩ ∧
      hasCallableNext (.obj [("next", .num 1)]) = false ∧
      co sampleWorld sampleEnv 1 .undefined [.obj [("next", .num 1)]]
        = ⟨[.resolve (.obj [("next", .num 1)])], false⟩ := by
  refine ⟨by decide, ?_, by decide, ?_⟩ <;>
    simp [co, instantiate, truthy, hasCallableNext, routineOf, sampleWorld, returnsAtOnce,
      onFulfilled, next, Run.push, Run.rest]

/-- C5 as stated fails: `co(function* (a) { return a }, 7)` calls the generator
function with no argument, and the routine returns `undefined`, not `7`. -/
theorem co_initial_args_counterexample :
    (co sampleWorld sampleEnv 1 .undefined [.fn 2, .num 7]).events
        = [.call 2 .undefined [], .resume .undefined, .resolve .undefined] ∧
      (co sampleWorld sampleEnv 1 .undefined [.fn 2, .num 7]).events
        ≠ [.call 2 .undefined [.num 7], .resume .undefined, .resolve (.num 7)] := by
  refine ⟨rfl, ?_⟩
  intro h
  have h1 : (co sampleWorld sampleEnv 1 .undefined [.fn 2, .num 7]).events
      = [.call 2 .undefined [], .resume .undefined, .resolve .undefined] := rfl
  rw [h1] at h
  simp at h

/-- C5, amended: `co` calls a routine template with `this = ctx` and an empty
argument list; what follows the template in the call of `co` has no effect. -/
theorem co_instantiates_without_args (W : World) (env : Env) (fuel : Nat) (ctx : Val)
    (k : Nat) (args : List Val) :
    co W env fuel ctx (.fn k :: args) = co W env fuel ctx [.fn k] ∧
      (co W env fuel ctx (.fn k :: args)).events.head? = some (.call k ctx []) := by
  refine ⟨rfl, ?_⟩
  simp only [co, List.headD_cons]
  split <;> [skip; split] <;> simp

theorem next_throwIsFinal {σ : Type} (W : World) (env : Env) (ctx : Val)
    (onF : σ → Val → Run) (hF : ∀ s v, throwIsFinal (onF s v).events)
    (ret : IterResult σ) : throwIsFinal (next W env ctx onF ret).events := by
  cases ret with
  | done v => simp [next, rest_events, throwIsFinal]
  | yield v s1 =>
    simp only [next]
    split
    · simp only [push_events, throwIsFinal]
      split <;> simp [hF, rest_events, onRejected_events, throwIsFinal]
    · simp [push_events, onRejected_events, throwIsFinal]

theorem onFulfilled_throwIsFinal (W : World) (env : Env) (ctx : Val) (g : Routine) :
    ∀ fuel s res, throwIsFinal (onFulfilled W env ctx g fuel s res).events := by
  intro fuel
  induction fuel with
  | zero => simp [onFulfilled, outOfFuel_events, throwIsFinal]
  | succ n ih =>
    intro s res
    simp only [onFulfilled]
    split
    · simp [rest_events, throwIsFinal]
    · simp only [push_events, throwIsFinal]
      exact next_throwIsFinal W env ctx _ ih _

theorem next_completionIsFinal {σ : Type} (W : World) (env : Env) (ctx : Val)
    (onF : σ → Val → Run) (hF : ∀ s v, completionIsFinal (onF s v).events)
    (ret : IterResult σ) : completionIsFinal (next W env ctx onF ret).events := by
  cases ret with
  | done v => simp [next, rest_events, completionIsFinal]
  | yield v s1 =>
    simp only [next]
    split
    · simp only [push_events, completionIsFinal, Event.isCompletion]
      split <;> simp [hF, rest_events, onRejected_events, completionIsFinal]
    · simp [push_events, onRejected_events, completionIsFinal, Event.isCompletion]

theorem onFulfilled_completionIsFinal (W : World) (env : Env) (ctx : Val) (g : Routine) :
    ∀ fuel s res, completionIsFinal (onFulfilled W env ctx g fuel s res).events := by
  intro fuel
  induction fuel with
  | zero => simp [onFulfilled, outOfFuel_events, completionIsFinal]
  | succ n ih =>
    intro s res
    simp only [onFulfilled]
    split
    · simp [rest_events, completionIsFinal, Event.isCompletion]
    · simp only [push_events, completionIsFinal, Event.isCompletion]
      simp [next_completionIsFinal W env ctx _ ih]

/-- The calls of `co`: those of line 96, then either `resolve(gen)` or the calls
of `onFulfilled()`. -/
theorem co_events (W : World) (env : Env) (fuel : Nat) (ctx : Val) (args : List Val) :
    ∃ called : List Event, (called = [] ∨ ∃ k, called = [.call k ctx []]) ∧
      ((∃ v, co W env fuel ctx args = ⟨called ++ [.resolve v], false⟩) ∨
        ∃ g, routineOf W (instantiate W ctx (args.headD .undefined)) = some g ∧
          co W env fuel ctx args =
            ⟨called ++ (onFulfilled W env ctx g fuel g.init .undefined).events,
              (onFulfilled W env ctx g fuel g.init .undefined).cut⟩) := by
  refine ⟨match args.headD .undefined with | .fn k => [.call k ctx []] | _ => [], ?_, ?_⟩
  · split <;> simp
  · simp only [co]
    split
    · exact Or.inl ⟨_, rfl⟩
    · rename_i h
      split
      · rename_i g hg
        exact Or.inr ⟨g, hg, rfl⟩
      · rename_i hg
        exfalso
        simp only [Bool.or_eq_true, Bool.not_eq_true', not_or, Bool.not_eq_false] at h
        obtain ⟨g, hg2⟩ := (hasCallableNext_iff W _).1 h.2
        rw [hg2] at hg
        cases hg

theorem throwIsFinal_called (ctx : Val) (called es : List Event)
    (hc : called = [] ∨ ∃ k, called = [.call k ctx []]) (h : throwIsFinal es) :
    throwIsFinal (called ++ es) := by
  rcases hc with rfl | ⟨k, rfl⟩ <;> simpa [throwIsFinal] using h

theorem completionIsFinal_called (ctx : Val) (called es : List Event)
    (hc : called = [] ∨ ∃ k, called = [.call k ctx []]) (h : completionIsFinal es) :
    completionIsFinal (called ++ es) := by
  rcases hc with rfl | ⟨k, rfl⟩ <;> simpa [completionIsFinal, Event.isCompletion] using h

theorem co_throwIsFinal (W : World) (env : Env) (fuel : Nat) (ctx : Val) (args : List Val) :
    throwIsFinal (co W env fuel ctx args).events := by
  obtain ⟨called, hc, h | ⟨g, -, h⟩⟩ := co_events W env fuel ctx args
  · obtain ⟨v, h⟩ := h
    rw [h]
    exact throwIsFinal_called ctx _ _ hc (by simp [throwIsFinal])
  · rw [h]
    exact throwIsFinal_called ctx _ _ hc (onFulfilled_throwIsFinal W env ctx _ fuel _ _)

theorem co_completionIsFinal (W : World) (env : Env) (fuel : Nat) (ctx : Val)
    (args : List Val) : completionIsFinal (co W env fuel ctx args).events := by
  obtain ⟨called, hc, h | ⟨g, -, h⟩⟩ := co_events W env fuel ctx args
  · obtain ⟨v, h⟩ := h
    rw [h]
    exact completionIsFinal_called ctx _ _ hc (by simp [completionIsFinal])
  · rw [h]
    exact completionIsFinal_called ctx _ _ hc (onFulfilled_completionIsFinal W env ctx _ fuel _ _)

theorem completions_append (xs ys : List Event) :
    completions (xs ++ ys) = completions xs ++ completions ys := by
  induction xs with
  | nil => rfl
  | cons x xs ih => cases x <;> simp [completions, ih]

theorem throwIsFinal_split (es pre post : List Event) (e : Val) (h : throwIsFinal es)
    (hes : es = pre ++ .threw e :: post) : post = [.reject e] := by
  subst hes
  induction pre with
  | nil => simpa [throwIsFinal] using h
  | cons x pre ih =>
    cases x
    case threw e1 =>
      simp only [List.cons_append, throwIsFinal] at h
      cases pre <;> simp at h
    all_goals simp_all [throwIsFinal]

theorem completionIsFinal_split (es pre post : List Event) (x : Event)
    (h : completionIsFinal es) (hes : es = pre ++ x :: post) : completions pre = [] := by
  subst hes
  induction pre with
  | nil => rfl
  | cons y pre ih =>
    simp only [List.cons_append, completionIsFinal] at h
    cases y <;> simp_all [completions, Event.isCompletion]

/-- C4: in every run of `co`, an exception `e` the routine raises is followed by
`reject(e)` and by nothing else, so that the run makes no `gen.next` call after
it, and `reject(e)` is the one completion signal of the run. -/
theorem co_routine_throw_rejects (W : World) (env : Env) (fuel : Nat) (ctx : Val)
    (args : List Val) (pre post : List Event) (e : Val)
    (h : (co W env fuel ctx args).events = pre ++ .threw e :: post) :
    post = [.reject e] ∧ resumes post = [] ∧
      completions (co W env fuel ctx args).events = [.failure e] := by
  have hpost := throwIsFinal_split _ pre post e (co_throwIsFinal W env fuel ctx args) h
  have hpre := completionIsFinal_split _ pre post _ (co_completionIsFinal W env fuel ctx args) h
  subst hpost
  refine ⟨rfl, rfl, ?_⟩
  rw [h, completions_append, hpre]
  rfl

theorem co_routine_throw_rejects_witness :
    (co sampleWorld sampleEnv 1 .null [.iter 3]).events
        = [.resume .undefined] ++ .threw (.str "bad") :: [.reject (.str "bad")] ∧
      ([Event.reject (.str "bad")] = [.reject (.str "bad")] ∧
        resumes [.reject (.str "bad")] = [] ∧
        completions (co sampleWorld sampleEnv 1 .null [.iter 3]).events
          = [.failure (.str "bad")]) :=
  ⟨rfl, co_routine_throw_rejects sampleWorld sampleEnv 1 .null [.iter 3]
    [.resume .undefined] [.reject (.str "bad")] (.str "bad") rfl⟩

theorem observers_called (ctx : Val) (called es : List Event)
    (hc : called = [] ∨ ∃ k, called = [.call k ctx []]) :
    completions (called ++ es) = completions es ∧
      subscriptions (called ++ es) = subscriptions es ∧
      normalisations (called ++ es) = normalisations es ∧
      resumes (called ++ es) = resumes es := by
  rcases hc with rfl | ⟨k, rfl⟩ <;>
    simp [completions, subscriptions, normalisations, resumes]

/-- The calls of `co` on a value that, once instantiated, has a callable `next`:
those of line 96, then those of `onFulfilled()`. -/
theorem co_driven (W : World) (env : Env) (fuel : Nat) (ctx gen : Val) (more : List Val)
    (g : Routine) (hgen : routineOf W (instantiate W ctx gen) = some g) :
    ∃ called : List Event, (called = [] ∨ ∃ j, called = [.call j ctx []]) ∧
      co W env fuel ctx (gen :: more) =
        ⟨called ++ (onFulfilled W env ctx g fuel g.init .undefined).events,
          (onFulfilled W env ctx g fuel g.init .undefined).cut⟩ := by
  have hn : hasCallableNext (instantiate W ctx gen) = true :=
    (hasCallableNext_iff W _).2 ⟨g, hgen⟩
  have ht : truthy (instantiate W ctx gen) = true := by
    revert hn
    cases instantiate W ctx gen <;> simp [hasCallableNext, truthy]
  have hco : ∀ called : List Event,
      (if (!truthy (instantiate W ctx gen) || !hasCallableNext (instantiate W ctx gen)) = true
        then (⟨called ++ [.resolve (instantiate W ctx gen)], false⟩ : Run)
        else
          match routineOf W (instantiate W ctx gen) with
          | some g =>
            ⟨called ++ (onFulfilled W env ctx g fuel g.init .undefined).events,
              (onFulfilled W env ctx g fuel g.init .undefined).cut⟩
          | none => ⟨called, false⟩) =
        ⟨called ++ (onFulfilled W env ctx g fuel g.init .undefined).events,
          (onFulfilled W env ctx g fuel g.init .undefined).cut⟩ := by
    intro called
    rw [hn, ht, hgen]
    rfl
  cases gen
  case fn j => exact ⟨[.call j ctx []], Or.inr ⟨j, rfl⟩, hco _⟩
  all_goals exact ⟨[], Or.inl rfl, hco _⟩

theorem co_routine (W : World) (env : Env) (fuel : Nat) (ctx gen : Val) (more : List Val)
    (k : Nat) (hgen : instantiate W ctx gen = .iter k) :
    ∃ called : List Event, (called = [] ∨ ∃ j, called = [.call j ctx []]) ∧
      co W env fuel ctx (gen :: more) =
        ⟨called ++ (onFulfilled W env ctx (W.routine k) fuel (W.routine k).init
          .undefined).events,
          (onFulfilled W env ctx (W.routine k) fuel (W.routine k).init .undefined).cut⟩ :=
  co_driven W env fuel ctx gen more (W.routine k) (by rw [hgen]; rfl)

theorem onFulfilled_yieldsThenReturns (W : World) (env : Env) (ctx : Val) (g : Routine)
    (x : Val) : ∀ (n fuel : Nat) (s : g.σ) (res : Val),
      yieldsThenReturns env ctx g n s res x → n + 1 ≤ fuel →
      (onFulfilled W env ctx g fuel s res).cut = false ∧
        completions (onFulfilled W env ctx g fuel s res).events = [.success x] ∧
        (subscriptions (onFulfilled W env ctx g fuel s res).events).length = n ∧
        (normalisations (onFulfilled W env ctx g fuel s res).events).length = n ∧
        resumes (onFulfilled W env ctx g fuel s res).events ≠ [] ∧
        (resumes (onFulfilled W env ctx g fuel s res).events).head? = some res ∧
        (resumes (onFulfilled W env ctx g fuel s res).events).length = n + 1 := by
  intro n
  induction n with
  | zero =>
    intro fuel s res h hfuel
    obtain ⟨m, rfl⟩ : ∃ m, fuel = m + 1 := ⟨fuel - 1, by omega⟩
    simp only [yieldsThenReturns] at h
    simp [onFulfilled, h, next, Run.push, Run.rest, completions, subscriptions,
      normalisations, resumes]
  | succ n ih =>
    intro fuel s res h hfuel
    obtain ⟨m, rfl⟩ : ∃ m, fuel = m + 1 := ⟨fuel - 1, by omega⟩
    obtain ⟨v, s1, r, hy, ha, hs, hrest⟩ := h
    have hm := ih m s1 r hrest (by omega)
    simp only [awaitable] at ha
    simp [onFulfilled, hy, next, ha, hs, Run.push, completions, subscriptions,
      normalisations, resumes, hm]

/-- C1: a routine that yields `n` times a value normalising to a promise that
has fulfilled, and then returns `x`, is driven by `co` to `resolve(x)` with any
fuel of at least `n + 1`: `co` hands exactly `n` values to `toPromise`,
subscribes to exactly `n` promises and calls `gen.next` exactly `n + 1` times,
the first time with `undefined`.  For `n = 0` nothing is normalised or
subscribed to. -/
theorem co_repeated_yields_resolve (W : World) (env : Env) (fuel : Nat) (ctx gen : Val)
    (more : List Val) (k n : Nat) (x : Val) (hgen : instantiate W ctx gen = .iter k)
    (h : yieldsThenReturns env ctx (W.routine k) n (W.routine k).init .undefined x)
    (hfuel : n + 1 ≤ fuel) :
    (co W env fuel ctx (gen :: more)).cut = false ∧
      completions (co W env fuel ctx (gen :: more)).events = [.success x] ∧
      (normalisations (co W env fuel ctx (gen :: more)).events).length = n ∧
      (subscriptions (co W env fuel ctx (gen :: more)).events).length = n ∧
      (resumes (co W env fuel ctx (gen :: more)).events).head? = some .undefined ∧
      (resumes (co W env fuel ctx (gen :: more)).events).length = n + 1 := by
  obtain ⟨called, hc, hco⟩ := co_routine W env fuel ctx gen more k hgen
  obtain ⟨h1, h2, h3, h4, -, h5, h6⟩ :=
    onFulfilled_yieldsThenReturns W env ctx (W.routine k) x n fuel _ _ h hfuel
  obtain ⟨e1, e2, e3, e4⟩ := observers_called ctx called
    (onFulfilled W env ctx (W.routine k) fuel (W.routine k).init .undefined).events hc
  rw [hco]
  simp only [e1, e2, e3, e4]
  exact ⟨h1, h2, h4, h3, h5, h6⟩

theorem co_repeated_yields_resolve_witness :
    instantiate sampleWorld .null (.fn 0) = .iter 0 ∧
      yieldsThenReturns sampleEnv .null (sampleWorld.routine 0) 2
        (sampleWorld.routine 0).init .undefined .undefined ∧
      2 + 1 ≤ 3 ∧
      ((co sampleWorld sampleEnv 3 .null [.fn 0]).cut = false ∧
        completions (co sampleWorld sampleEnv 3 .null [.fn 0]).events
          = [.success .undefined] ∧
        (normalisations (co sampleWorld sampleEnv 3 .null [.fn 0]).events).length = 2 ∧
        (subscriptions (co sampleWorld sampleEnv 3 .null [.fn 0]).events).length = 2 ∧
        (resumes (co sampleWorld sampleEnv 3 .null [.fn 0]).events).head?
          = some .undefined ∧
        (resumes (co sampleWorld sampleEnv 3 .null [.fn 0]).events).length = 2 + 1) :=
  have hy : yieldsThenReturns sampleEnv .null (sampleWorld.routine 0) 2
      (sampleWorld.routine 0).init .undefined .undefined :=
    ⟨_, _, _, rfl, rfl, rfl, _, _, _, rfl, rfl, rfl, rfl⟩
  ⟨rfl, hy, by decide,
    co_repeated_yields_resolve sampleWorld sampleEnv 3 .null (.fn 0) [] 0 2 .undefined
      rfl hy (by decide)⟩

theorem next_one_completion {σ : Type} (W : World) (env : Env) (ctx : Val)
    (onF : σ → Val → Run) (v : Val) (s1 : σ)
    (h : awaitable env ctx v = false ∨
      (∃ e, env.settle (env.toPromise ctx v) = .rejected e) ∨
      ∃ r, env.settle (env.toPromise ctx v) = .fulfilled r ∧
        (onF s1 r).cut = false ∧ (completions (onF s1 r).events).length = 1) :
    (next W env ctx onF (.yield v s1)).cut = false ∧
      (completions (next W env ctx onF (.yield v s1)).events).length = 1 := by
  simp only [next]
  split
  · rename_i ha
    rcases h with h | ⟨e, h⟩ | ⟨r, h, hc, hl⟩
    · exfalso
      simp only [awaitable] at h
      simp_all
    · simp [h, push_cut, push_events, onRejected_cut, onRejected_events, completions]
    · simp [h, push_cut, push_events, completions, hc, hl]
  · simp [push_cut, push_events, onRejected_cut, onRejected_events, completions]

theorem onFulfilled_endsAfter (W : World) (env : Env) (ctx : Val) (g : Routine) :
    ∀ (n fuel : Nat) (s : g.σ) (res : Val), endsAfter env ctx g n s res → n + 1 ≤ fuel →
      (onFulfilled W env ctx g fuel s res).cut = false ∧
        (completions (onFulfilled W env ctx g fuel s res).events).length = 1 := by
  intro n
  induction n with
  | zero =>
    intro fuel s res h hfuel
    obtain ⟨m, rfl⟩ : ∃ m, fuel = m + 1 := ⟨fuel - 1, by omega⟩
    simp only [endsAfter] at h
    simp only [onFulfilled]
    split
    · simp [rest_cut, rest_events, completions]
    · rename_i ret hret
      rw [hret] at h
      cases ret with
      | done x => simp [next, push_cut, push_events, rest_cut, rest_events, completions]
      | yield v s1 =>
        have := next_one_completion W env ctx (onFulfilled W env ctx g m) v s1
          (by rcases h with h | h
              · exact Or.inl h
              · exact Or.inr (Or.inl h))
        simpa [push_cut, push_events, completions] using this
  | succ n ih =>
    intro fuel s res h hfuel
    obtain ⟨m, rfl⟩ : ∃ m, fuel = m + 1 := ⟨fuel - 1, by omega⟩
    simp only [endsAfter] at h
    simp only [onFulfilled]
    split
    · simp [rest_cut, rest_events, completions]
    · rename_i ret hret
      rw [hret] at h
      cases ret with
      | done x => simp [next, push_cut, push_events, rest_cut, rest_events, completions]
      | yield v s1 =>
        have := next_one_completion W env ctx (onFulfilled W env ctx g m) v s1
          (by rcases h with h | h | ⟨r, h, hr⟩
              · exact Or.inl h
              · exact Or.inr (Or.inl h)
              · exact Or.inr (Or.inr ⟨r, h, ih m s1 r hr (by omega)⟩))
        simpa [push_cut, push_events, completions] using this

theorem completionIsFinal_last (es : List Event) (h : completionIsFinal es)
    (hne : completions es ≠ []) :
    ∃ pre c, es = pre ++ [c] ∧ c.isCompletion = true ∧ completions pre = [] := by
  induction es with
  | nil => simp [completions] at hne
  | cons x es ih =>
    obtain ⟨hx, hes⟩ := h
    by_cases hc : x.isCompletion = true
    · have := hx hc
      subst this
      exact ⟨[], x, rfl, hc, rfl⟩
    · have hne2 : completions es ≠ [] := by
        cases x <;> simp_all [completions, Event.isCompletion]
      obtain ⟨pre, c, rfl, hcc, hpre⟩ := ih hes hne2
      refine ⟨x :: pre, c, rfl, hcc, ?_⟩
      cases x <;> simp_all [completions, Event.isCompletion]

/-- C8: a routine with finitely many suspend points whose yielded awaitables all
settle, with success or with failure (it comes to an end within `n` resumes
after the first), is driven by `co`, with any fuel of at least `n + 1`, to a
run that is at rest, in which exactly one of `resolve` and `reject` is called
exactly once, as the very last call: no `gen.next` call and no subscription
comes after it. -/
theorem co_one_completion (W : World) (env : Env) (fuel : Nat) (ctx gen : Val)
    (more : List Val) (g : Routine) (n : Nat)
    (hgen : routineOf W (instantiate W ctx gen) = some g)
    (h : endsAfter env ctx g n g.init .undefined) (hfuel : n + 1 ≤ fuel) :
    (co W env fuel ctx (gen :: more)).cut = false ∧
      (completions (co W env fuel ctx (gen :: more)).events).length = 1 ∧
      ∃ pre c, (co W env fuel ctx (gen :: more)).events = pre ++ [c] ∧
        c.isCompletion = true ∧ completions pre = [] ∧
        resumes [c] = [] ∧ subscriptions [c] = [] := by
  obtain ⟨called, hc, hco⟩ := co_driven W env fuel ctx gen more g hgen
  obtain ⟨h1, h2⟩ := onFulfilled_endsAfter W env ctx g n fuel _ _ h hfuel
  obtain ⟨e1, -⟩ := observers_called ctx called
    (onFulfilled W env ctx g fuel g.init .undefined).events hc
  have hlen : (completions (co W env fuel ctx (gen :: more)).events).length = 1 := by
    rw [hco]
    simp only [e1]
    exact h2
  refine ⟨by rw [hco]; exact h1, hlen, ?_⟩
  obtain ⟨pre, c, hes, hcc, hpre⟩ :=
    completionIsFinal_last _ (co_completionIsFinal W env fuel ctx (gen :: more))
      (by intro h0; rw [h0] at hlen; simp at hlen)
  refine ⟨pre, c, hes, hcc, hpre, ?_, ?_⟩ <;>
    cases c <;> simp_all [Event.isCompletion, resumes, subscriptions]

theorem co_one_completion_witness :
    (routineOf sampleWorld (instantiate sampleWorld .null (.fn 0)) = some twoReads ∧
      endsAfter sampleEnv .null twoReads 2 twoReads.init .undefined ∧ 2 + 1 ≤ 5 ∧
      completions (co sampleWorld sampleEnv 5 .null [.fn 0]).events
        = [.success .undefined] ∧
      (co sampleWorld sampleEnv 5 .null [.fn 0]).cut = false ∧
      (completions (co sampleWorld sampleEnv 5 .null [.fn 0]).events).length = 1) ∧
    (routineOf sampleWorld (instantiate sampleWorld .null (.iter 1)) = some secondReadFails ∧
      endsAfter sampleEnv .null secondReadFails 1 secondReadFails.init .undefined ∧
      1 + 1 ≤ 5 ∧
      completions (co sampleWorld sampleEnv 5 .null [.iter 1]).events
        = [.failure (.str "ENOENT")] ∧
      (co sampleWorld sampleEnv 5 .null [.iter 1]).cut = false ∧
      (completions (co sampleWorld sampleEnv 5 .null [.iter 1]).events).length = 1) :=
  have h1 : endsAfter sampleEnv .null twoReads 2 twoReads.init .undefined :=
    Or.inr (Or.inr ⟨_, rfl, Or.inr (Or.inr ⟨_, rfl, trivial⟩)⟩)
  have h2 : endsAfter sampleEnv .null secondReadFails 1 secondReadFails.init .undefined :=
    Or.inr (Or.inr ⟨_, rfl, Or.inr ⟨_, rfl⟩⟩)
  have t1 := co_one_completion sampleWorld sampleEnv 5 .null (.fn 0) [] twoReads 2 rfl h1
    (by decide)
  have t2 := co_one_completion sampleWorld sampleEnv 5 .null (.iter 1) [] secondReadFails 1
    rfl h2 (by decide)
  ⟨⟨rfl, h1, by decide, rfl, t1.1, t1.2.1⟩, ⟨rfl, h2, by decide, rfl, t2.1, t2.2.1⟩⟩

theorem onFulfilled_projections (W : World) (env : Env) (ctx : Val) (g : Routine) :
    ∀ (fuel : Nat) (s : g.σ) (res : Val),
      resumes (onFulfilled W env ctx g fuel s res).events
          = resumeValues env ctx g fuel s res ∧
        normalisations (onFulfilled W env ctx g fuel s res).events
          = yieldedValues env ctx g fuel s res ∧
        subscriptions (onFulfilled W env ctx g fuel s res).events
          = awaitedPromises env ctx g fuel s res := by
  intro fuel
  induction fuel with
  | zero =>
    intro s res
    simp [onFulfilled, outOfFuel_events, resumes, normalisations, subscriptions,
      resumeValues, yieldedValues, awaitedPromises]
  | succ n ih =>
    intro s res
    simp only [onFulfilled, resumeValues, yieldedValues, awaitedPromises]
    cases hret : g.next s res with
    | error e => simp [rest_events, resumes, normalisations, subscriptions]
    | ok ret =>
      cases ret with
      | done x =>
        simp [next, push_events, rest_events, resumes, normalisations, subscriptions]
      | yield v s1 =>
        simp only [next, awaitable]
        by_cases ha : (truthy (env.toPromise ctx v) && env.isPromise (env.toPromise ctx v)) = true
        · simp only [ha, if_true, push_events, resumes, normalisations, subscriptions]
          cases hs : env.settle (env.toPromise ctx v) with
          | fulfilled r =>
            obtain ⟨i1, i2, i3⟩ := ih s1 r
            simp [i1, i2, i3]
          | rejected e =>
            simp [onRejected_events, resumes, normalisations, subscriptions]
          | pending => simp [rest_events, resumes, normalisations, subscriptions]
        · simp [ha, push_events, onRejected_events, resumes, normalisations, subscriptions]

theorem next_chained {σ : Type} (W : World) (env : Env) (ctx : Val) (onF : σ → Val → Run)
    (hF : ∀ s r prev, mayFollow env ctx prev (.resume r) → chained env ctx prev (onF s r).events)
    (res : Val) (ret : IterResult σ) :
    chained env ctx (.resume res) (next W env ctx onF ret).events := by
  cases ret with
  | done v => simp [next, rest_events, chained, mayFollow]
  | yield v s1 =>
    simp only [next]
    split
    · simp only [push_events, chained]
      refine ⟨by simp [mayFollow], by simp [mayFollow], ?_⟩
      split
      · rename_i r hr
        exact hF _ _ _ (by simp [mayFollow, answers, hr])
      · rename_i e he
        simp [onRejected_events, chained, mayFollow, answers, he]
      · simp [rest_events, chained]
    · simp [push_events, onRejected_events, chained, mayFollow]

theorem onFulfilled_chained (W : World) (env : Env) (ctx : Val) (g : Routine) :
    ∀ fuel s r prev, mayFollow env ctx prev (.resume r) →
      chained env ctx prev (onFulfilled W env ctx g fuel s r).events := by
  intro fuel
  induction fuel with
  | zero => simp [onFulfilled, outOfFuel_events, chained]
  | succ n ih =>
    intro s r prev hp
    simp only [onFulfilled]
    split
    · simp only [rest_events, chained]
      exact ⟨hp, by simp [mayFollow], by simp [mayFollow], trivial⟩
    · simp only [push_events, chained]
      exact ⟨hp, next_chained W env ctx _ ih _ _⟩

theorem onFulfilled_head (W : World) (env : Env) (ctx : Val) (g : Routine) (fuel : Nat)
    (s : g.σ) (res : Val) :
    (onFulfilled W env ctx g fuel s res).events = [] ∨
      ∃ tl, (onFulfilled W env ctx g fuel s res).events = .resume res :: tl := by
  cases fuel with
  | zero => exact Or.inl rfl
  | succ n =>
    right
    simp only [onFulfilled]
    split
    · exact ⟨_, rfl⟩
    · exact ⟨_, rfl⟩

/-- C9: in every run of `co` on a routine, whatever the fuel, `gen.next` is
called first with `undefined` and then, each time, with the value that the
awaitable the routine yielded at the suspend point just before has succeeded
with; the values handed to `toPromise` are the values the routine yields, the
promises subscribed to are what `toPromise` makes of them; and the calls are
strictly sequential: every `gen.next(v)` after the first comes directly after
the subscription to a promise that fulfilled with `v`, and a subscription is
followed directly by its own callback or by nothing, so that no second
subscription is made while one is outstanding. -/
theorem co_resumes_sequential (W : World) (env : Env) (fuel : Nat) (ctx gen : Val)
    (more : List Val) (g : Routine) (hgen : routineOf W (instantiate W ctx gen) = some g) :
    resumes (co W env (fuel + 1) ctx (gen :: more)).events
        = .undefined :: (resumeValues env ctx g (fuel + 1) g.init .undefined).tail ∧
      resumes (co W env fuel ctx (gen :: more)).events
        = resumeValues env ctx g fuel g.init .undefined ∧
      normalisations (co W env fuel ctx (gen :: more)).events
        = yieldedValues env ctx g fuel g.init .undefined ∧
      subscriptions (co W env fuel ctx (gen :: more)).events
        = awaitedPromises env ctx g fuel g.init .undefined ∧
      sequential env ctx (co W env fuel ctx (gen :: more)).events := by
  have hproj : ∀ fuel,
      resumes (co W env fuel ctx (gen :: more)).events
          = resumeValues env ctx g fuel g.init .undefined ∧
        normalisations (co W env fuel ctx (gen :: more)).events
          = yieldedValues env ctx g fuel g.init .undefined ∧
        subscriptions (co W env fuel ctx (gen :: more)).events
          = awaitedPromises env ctx g fuel g.init .undefined := by
    intro fuel
    obtain ⟨called, hc, hco⟩ := co_driven W env fuel ctx gen more g hgen
    obtain ⟨-, e2, e3, e4⟩ := observers_called ctx called
      (onFulfilled W env ctx g fuel g.init .undefined).events hc
    obtain ⟨p1, p2, p3⟩ := onFulfilled_projections W env ctx g fuel g.init .undefined
    rw [hco]
    simp only [e2, e3, e4]
    exact ⟨p1, p2, p3⟩
  refine ⟨?_, (hproj fuel).1, (hproj fuel).2.1, (hproj fuel).2.2, ?_⟩
  · rw [(hproj (fuel + 1)).1]
    simp [resumeValues]
  · obtain ⟨called, hc, hco⟩ := co_driven W env fuel ctx gen more g hgen
    rw [hco]
    have hch := onFulfilled_chained W env ctx g fuel g.init .undefined (.call 0 ctx [])
      (by simp [mayFollow])
    rcases onFulfilled_head W env ctx g fuel g.init .undefined with h0 | ⟨tl, h0⟩
    · rw [h0]
      rcases hc with rfl | ⟨j, rfl⟩ <;> simp [sequential, chained]
    · rw [h0] at hch ⊢
      simp only [chained] at hch
      rcases hc with rfl | ⟨j, rfl⟩ <;>
        simp [sequential, chained, mayFollow, hch.2]

/-- C10: for a routine with exactly two suspend points whose two yielded
promises fulfil with `d1` and `d2`, the manual nested-`then` execution and
`run` with any fuel of at least 3 make the same calls in the same order, both
call `gen.next` with `undefined`, `d1`, `d2` and no more, and both leave the
routine completed. -/
theorem manual_matches_run (W : World) (g : Routine) (fuel : Nat) (p1 p2 d1 d2 : Val)
    (s1 s2 : g.σ) (h1 : g.next g.init .undefined = .ok (.yield p1 s1))
    (hp1 : thenOf p1 = some (.fulfilled d1)) (h2 : g.next s1 d1 = .ok (.yield p2 s2))
    (hp2 : thenOf p2 = some (.fulfilled d2))
    (h3 : ∀ v s, g.next s2 d2 ≠ .ok (.yield v s)) (hfuel : 3 ≤ fuel) :
    (manual W g).1 = (run W g fuel).1 ∧
      resumes (manual W g).1.events = [.undefined, d1, d2] ∧
      resumes (run W g fuel).1.events = [.undefined, d1, d2] ∧
      (manual W g).2 = none ∧ (run W g fuel).2 = none := by
  obtain ⟨m, rfl⟩ : ∃ m, fuel = m + 3 := ⟨fuel - 3, by omega⟩
  cases h : g.next s2 d2 with
  | error e =>
    simp [manual, run, runNext, genNext, h1, hp1, h2, hp2, h, Run.push, Run.rest, resumes]
  | ok ret =>
    cases ret with
    | yield v s => exact absurd h (h3 v s)
    | done x =>
      simp [manual, run, runNext, genNext, h1, hp1, h2, hp2, h, Run.push, Run.rest, resumes]

theorem manual_matches_run_witness :
    twoReads.next twoReads.init .undefined = .ok (.yield (.fulfilled 3 (.str "fstab")) (1 : Nat)) ∧
      thenOf (.fulfilled 3 (.str "fstab")) = some (.fulfilled (.str "fstab")) ∧
      twoReads.next (1 : Nat) (.str "fstab") = .ok (.yield (.fulfilled 1 (.str "shells")) (2 : Nat)) ∧
      thenOf (.fulfilled 1 (.str "shells")) = some (.fulfilled (.str "shells")) ∧
      (∀ v s, twoReads.next (2 : Nat) (.str "shells") ≠ .ok (.yield v s)) ∧
      3 ≤ 3 ∧
      ((manual sampleWorld twoReads).1 = (run sampleWorld twoReads 3).1 ∧
        resumes (manual sampleWorld twoReads).1.events
          = [.undefined, .str "fstab", .str "shells"] ∧
        resumes (run sampleWorld twoReads 3).1.events
          = [.undefined, .str "fstab", .str "shells"] ∧
        (manual sampleWorld twoReads).2 = none ∧ (run sampleWorld twoReads 3).2 = none) :=
  have h3 : ∀ v s, twoReads.next (2 : Nat) (.str "shells") ≠ .ok (.yield v s) := by
    intro v s h
    cases h
  ⟨rfl, rfl, rfl, rfl, h3, by decide,
    manual_matches_run sampleWorld twoReads 3 (.fulfilled 3 (.str "fstab"))
      (.fulfilled 1 (.str "shells")) (.str "fstab") (.str "shells") (1 : Nat) (2 : Nat) rfl rfl rfl rfl h3
      (by decide)⟩

theorem toPromiseAll_eq_map (nested : Val → Val → Val) (this : Val) (ms : List Val) :
    toPromiseAll nested this ms = ms.map (toPromise nested this) := by
  induction ms with
  | nil => simp [toPromiseAll]
  | cons m ms ih => simp [toPromiseAll, ih]

theorem toPromiseFields_values (nested : Val → Val → Val) (this : Val)
    (fs : List (String × Val)) :
    (toPromiseFields nested this fs).map Prod.snd
      = (fs.map Prod.snd).map (toPromise nested this) := by
  induction fs with
  | nil => simp [toPromiseFields]
  | cons f fs ih =>
    obtain ⟨k, v⟩ := f
    simp [toPromiseFields, ih]

theorem toPromiseFields_mirror (nested : Val → Val → Val) (this : Val)
    (fs : List (String × Val)) :
    (toPromiseFields nested this fs).map (fun f => (f.1, memberValue f.2))
      = List.zipWith (fun f v => (f.1, v)) fs
          (((fs.map Prod.snd).map (toPromise nested this)).map memberValue) := by
  induction fs with
  | nil => simp [toPromiseFields]
  | cons f fs ih =>
    obtain ⟨k, v⟩ := f
    simp only [toPromiseFields, List.map_cons, List.zipWith_cons_cons, ih]

/-- What `toPromise` makes of an aggregate, in terms of its normalised members. -/
theorem toPromise_aggregate (nested : Val → Val → Val) (this agg : Val)
    (hagg : isAggregate agg = true) :
    toPromise nested this agg =
      match firstFailure ((members agg).map (toPromise nested this)) with
      | some (t, e) => .rejected t e
      | none =>
        if anyPending ((members agg).map (toPromise nested this)) then .pending
        else .fulfilled (lastTick ((members agg).map (toPromise nested this)))
          (mirror agg (((members agg).map (toPromise nested this)).map memberValue)) := by
  cases agg
  case arr items =>
    simp only [toPromise, allOf, toPromiseAll_eq_map, members, mirror]
  case obj fields =>
    simp only [toPromise, allKeyed, toPromiseFields_values, toPromiseFields_mirror, members,
      mirror]
  all_goals simp [isAggregate] at hagg

theorem allFulfilled_facts : ∀ (ts : List Nat) (vs : List Val), ts.length = vs.length →
    firstFailure (List.zipWith Val.fulfilled ts vs) = none ∧
      anyPending (List.zipWith Val.fulfilled ts vs) = false ∧
      (List.zipWith Val.fulfilled ts vs).map memberValue = vs := by
  intro ts
  induction ts with
  | nil =>
    intro vs h
    cases vs with
    | nil => simp [firstFailure, anyPending]
    | cons v vs => simp at h
  | cons t ts ih =>
    intro vs h
    cases vs with
    | nil => simp at h
    | cons v vs =>
      obtain ⟨h1, h2, h3⟩ := ih vs (by simpa using h)
      simp [firstFailure, anyPending, memberValue, h1, h2, h3]

theorem firstFailure_mem : ∀ (ms : List Val) (t : Nat) (e : Val),
    firstFailure ms = some (t, e) → Val.rejected t e ∈ ms := by
  intro ms
  induction ms with
  | nil => intro t e h; simp [firstFailure] at h
  | cons m ms ih =>
    intro t e h
    cases m
    case rejected t1 e1 =>
      simp only [firstFailure] at h
      split at h
      · rename_i t2 e2 h2
        split at h
        · simp only [Option.some.injEq, Prod.mk.injEq] at h
          obtain ⟨rfl, rfl⟩ := h
          exact List.mem_cons_of_mem _ (ih _ _ h2)
        · simp only [Option.some.injEq, Prod.mk.injEq] at h
          obtain ⟨rfl, rfl⟩ := h
          exact List.mem_cons_self _ _
      · simp only [Option.some.injEq, Prod.mk.injEq] at h
        obtain ⟨rfl, rfl⟩ := h
        exact List.mem_cons_self _ _
    all_goals
      simp only [firstFailure] at h
      exact List.mem_cons_of_mem _ (ih _ _ h)

theorem firstFailure_isSome : ∀ (ms : List Val) (t : Nat) (e : Val),
    Val.rejected t e ∈ ms → ∃ t1 e1, firstFailure ms = some (t1, e1) := by
  intro ms
  induction ms with
  | nil => intro t e h; simp at h
  | cons m ms ih =>
    intro t e h
    cases m
    case rejected t1 e1 =>
      simp only [firstFailure]
      split
      · split
        · exact ⟨_, _, rfl⟩
        · exact ⟨_, _, rfl⟩
      · exact ⟨_, _, rfl⟩
    all_goals
      simp only [firstFailure]
      simp only [List.mem_cons, false_or, reduceCtorEq] at h
      exact ih _ _ h

/-- C6: a routine that yields an aggregate all of whose normalised members
fulfil, member `i` at tick `ts[i]` with `vs[i]`, is resumed by `co` with the
aggregate's mirror image: the sequence `vs` for an ordered sequence, the same
keys with the values `vs` for a keyed mapping, whatever the ticks are. -/
theorem onFulfilled_aggregate_mirrors (W : World) (nested : Val → Val → Val) (ctx : Val)
    (g : Routine) (fuel : Nat) (s s1 : g.σ) (res agg : Val) (ts : List Nat) (vs : List Val)
    (hy : g.next s res = .ok (.yield agg s1)) (hagg : isAggregate agg = true)
    (hm : (members agg).map (toPromise nested ctx) = List.zipWith Val.fulfilled ts vs)
    (hlen : ts.length = vs.length) :
    onFulfilled W (specEnv nested) ctx g (fuel + 2) s res
        = Run.push (.resume res) (Run.push (.normalise agg)
            (Run.push (.subscribe (toPromise nested ctx agg))
              (onFulfilled W (specEnv nested) ctx g (fuel + 1) s1 (mirror agg vs)))) ∧
      (resumes (onFulfilled W (specEnv nested) ctx g (fuel + 2) s res).events).take 2
        = [res, mirror agg vs] := by
  obtain ⟨h1, h2, h3⟩ := allFulfilled_facts ts vs hlen
  have hp : toPromise nested ctx agg
      = .fulfilled (lastTick (List.zipWith Val.fulfilled ts vs)) (mirror agg vs) := by
    rw [toPromise_aggregate nested ctx agg hagg, hm, h1, h2, h3]
    rfl
  have heq : onFulfilled W (specEnv nested) ctx g (fuel + 2) s res
        = Run.push (.resume res) (Run.push (.normalise agg)
            (Run.push (.subscribe (toPromise nested ctx agg))
              (onFulfilled W (specEnv nested) ctx g (fuel + 1) s1 (mirror agg vs)))) := by
    rw [onFulfilled, hy]
    simp only [next, specEnv, hp, truthy, isPromise, thenOf, settle, Option.isSome_some,
      Bool.and_self, if_true, Option.getD_some]
  refine ⟨heq, ?_⟩
  rw [heq]
  rcases onFulfilled_head W (specEnv nested) ctx g (fuel + 1) s1 (mirror agg vs)
    with h0 | ⟨tl, h0⟩
  · simp [onFulfilled] at h0
    split at h0 <;> simp [Run.rest, Run.push] at h0
  · simp [push_events, resumes, h0]

theorem onFulfilled_aggregate_mirrors_witness :
    (resumes (onFulfilled sampleWorld sampleEnv .null
        (yieldsForever (.arr [.fulfilled 2 (.num 1), .fulfilled 1 (.num 2)])) 2 ()
        .undefined).events).take 2
      = [.undefined, .arr [.num 1, .num 2]] ∧
    (resumes (onFulfilled sampleWorld sampleEnv .null
        (yieldsForever (.obj [("a", .fulfilled 2 (.num 1)), ("b", .fulfilled 1 (.num 2))])) 2 ()
        .undefined).events).take 2
      = [.undefined, .obj [("a", .num 1), ("b", .num 2)]] :=
  ⟨(onFulfilled_aggregate_mirrors sampleWorld (fun _ _ => .pending) .null
      (yieldsForever (.arr [.fulfilled 2 (.num 1), .fulfilled 1 (.num 2)])) 0 () ()
      .undefined (.arr [.fulfilled 2 (.num 1), .fulfilled 1 (.num 2)]) [2, 1]
      [.num 1, .num 2] rfl rfl rfl rfl).2,
    (onFulfilled_aggregate_mirrors sampleWorld (fun _ _ => .pending) .null
      (yieldsForever (.obj [("a", .fulfilled 2 (.num 1)), ("b", .fulfilled 1 (.num 2))])) 0 ()
      () .undefined (.obj [("a", .fulfilled 2 (.num 1)), ("b", .fulfilled 1 (.num 2))]) [2, 1]
      [.num 1, .num 2] rfl rfl rfl rfl).2⟩


theorem co_resumes_sequential_witness :
    routineOf sampleWorld (instantiate sampleWorld .null (.fn 0)) = some twoReads ∧
      resumes (co sampleWorld sampleEnv (2 + 1) .null [.fn 0]).events
        = [.undefined, .str "fstab", .str "shells"] ∧
      normalisations (co sampleWorld sampleEnv 3 .null [.fn 0]).events
        = [.fulfilled 3 (.str "fstab"), .fulfilled 1 (.str "shells")] ∧
      subscriptions (co sampleWorld sampleEnv 3 .null [.fn 0]).events
        = [.fulfilled 3 (.str "fstab"), .fulfilled 1 (.str "shells")] ∧
      sequential sampleEnv .null (co sampleWorld sampleEnv 3 .null [.fn 0]).events :=
  have t := co_resumes_sequential sampleWorld sampleEnv 2 .null (.fn 0) [] twoReads rfl
  have u := co_resumes_sequential sampleWorld sampleEnv 3 .null (.fn 0) [] twoReads rfl
  ⟨rfl, t.1, u.2.2.1, u.2.2.2.1, u.2.2.2.2⟩

/-- C3: when a routine yields a value `v` that normalisation does not turn into
an awaitable, `co` makes no subscription and calls `reject` with the
`TypeError` whose message is the fixed text followed by `String(v)` and a
closing quote; the run is then at rest: that `reject` is its only completion
and its last call, and `gen.next` is not called again. -/
theorem onFulfilled_bad_yield (W : World) (env : Env) (ctx : Val) (g : Routine) (fuel : Nat)
    (s s1 : g.σ) (res v : Val) (hy : g.next s res = .ok (.yield v s1))
    (hv : awaitable env ctx v = false) :
    onFulfilled W env ctx g (fuel + 1) s res
        = Run.rest [.resume res, .normalise v,
            .reject (.typeError
              ("You may only yield a function, promise, generator, array, or object, but the "
                ++ "following object was passed: \"" ++ W.string v ++ "\""))] ∧
      resumes (onFulfilled W env ctx g (fuel + 1) s res).events = [res] ∧
      subscriptions (onFulfilled W env ctx g (fuel + 1) s res).events = [] ∧
      completions (onFulfilled W env ctx g (fuel + 1) s res).events
        = [.failure (.typeError
            ("You may only yield a function, promise, generator, array, or object, but the "
              ++ "following object was passed: \"" ++ W.string v ++ "\""))] := by
  have heq : onFulfilled W env ctx g (fuel + 1) s res
        = Run.rest [.resume res, .normalise v,
            .reject (.typeError
              ("You may only yield a function, promise, generator, array, or object, but the "
                ++ "following object was passed: \"" ++ W.string v ++ "\""))] := by
    simp only [awaitable] at hv
    rw [onFulfilled, hy]
    simp only [next, hv, Bool.false_eq_true, if_false]
    rfl
  rw [heq]
  exact ⟨rfl, rfl, rfl, rfl⟩

theorem onFulfilled_bad_yield_witness :
    (yieldsForever (.num 5)).next () .undefined = .ok (.yield (.num 5) ()) ∧
      awaitable sampleEnv .null (.num 5) = false ∧
      onFulfilled sampleWorld sampleEnv .null (yieldsForever (.num 5)) 1 () .undefined
        = Run.rest [.resume .undefined, .normalise (.num 5),
            .reject (.typeError ("You may only yield a function, promise, generator, array, "
              ++ "or object, but the following object was passed: \"5\""))] ∧
      co sampleWorld sampleEnv 9 .null [.iter 4]
        = Run.rest [.resume .undefined, .normalise (.num 5),
            .reject (.typeError ("You may only yield a function, promise, generator, array, "
              ++ "or object, but the following object was passed: \"5\""))] :=
  ⟨rfl, rfl,
    (onFulfilled_bad_yield sampleWorld sampleEnv .null (yieldsForever (.num 5)) 0 () ()
      .undefined (.num 5) rfl rfl).1, rfl⟩

theorem mem_of_getElem? (ms : List Val) (j : Nat) (v : Val) (h : ms[j]? = some v) : v ∈ ms := by
  obtain ⟨hj, hget⟩ := List.getElem?_eq_some.1 h
  exact hget ▸ List.getElem_mem hj

/-- What `firstFailure` gives is the failure of the member that fails first. -/
theorem firstFailure_failsFirst : ∀ (ms : List Val) (t : Nat) (e : Val),
    firstFailure ms = some (t, e) → ∃ i, failsFirst ms i t e := by
  intro ms
  induction ms with
  | nil => intro t e h; simp [firstFailure] at h
  | cons m ms ih =>
    intro t e h
    cases m
    case rejected t0 e0 =>
      simp only [firstFailure] at h
      cases hff : firstFailure ms with
      | none =>
        rw [hff] at h
        simp only [Option.some.injEq, Prod.mk.injEq] at h
        obtain ⟨rfl, rfl⟩ := h
        refine ⟨0, by simp, ?_⟩
        intro j t1 e1 hj
        cases j with
        | zero =>
          simp only [List.getElem?_cons_zero, Option.some.injEq, Val.rejected.injEq] at hj
          exact Or.inr ⟨hj.1, Nat.le_refl _⟩
        | succ j =>
          simp only [List.getElem?_cons_succ] at hj
          obtain ⟨t2, e2, h2⟩ := firstFailure_isSome ms t1 e1 (mem_of_getElem? ms j _ hj)
          rw [hff] at h2
          cases h2
      | some p =>
        obtain ⟨t1, e1⟩ := p
        rw [hff] at h
        obtain ⟨i, hi, hmin⟩ := ih t1 e1 hff
        simp only at h
        split at h
        · rename_i hlt
          simp only [Option.some.injEq, Prod.mk.injEq] at h
          obtain ⟨rfl, rfl⟩ := h
          refine ⟨i + 1, by simpa using hi, ?_⟩
          intro j t2 e2 hj
          cases j with
          | zero =>
            simp only [List.getElem?_cons_zero, Option.some.injEq, Val.rejected.injEq] at hj
            exact Or.inl (hj.1 ▸ hlt)
          | succ j =>
            simp only [List.getElem?_cons_succ] at hj
            rcases hmin j t2 e2 hj with h3 | ⟨h3, h4⟩
            · exact Or.inl h3
            · exact Or.inr ⟨h3, by omega⟩
        · rename_i hge
          simp only [Option.some.injEq, Prod.mk.injEq] at h
          obtain ⟨rfl, rfl⟩ := h
          refine ⟨0, by simp, ?_⟩
          intro j t2 e2 hj
          cases j with
          | zero =>
            simp only [List.getElem?_cons_zero, Option.some.injEq, Val.rejected.injEq] at hj
            exact Or.inr ⟨hj.1, Nat.le_refl _⟩
          | succ j =>
            simp only [List.getElem?_cons_succ] at hj
            rcases hmin j t2 e2 hj with h3 | ⟨h3, -⟩
            · exact Or.inl (by omega)
            · rcases Nat.lt_or_ge t0 t2 with h5 | h5
              · exact Or.inl h5
              · exact Or.inr ⟨by omega, Nat.zero_le _⟩
    all_goals
      simp only [firstFailure] at h
      obtain ⟨i, hi, hmin⟩ := ih t e h
      refine ⟨i + 1, by simpa using hi, ?_⟩
      intro j t2 e2 hj
      cases j with
      | zero => simp at hj
      | succ j =>
        simp only [List.getElem?_cons_succ] at hj
        rcases hmin j t2 e2 hj with h3 | ⟨h3, h4⟩
        · exact Or.inl h3
        · exact Or.inr ⟨h3, by omega⟩

/-- C7: when a routine yields an aggregate of which some normalised member
fails, `co` fails with the error `e` of the member that fails first (the error
of the failing member, when only one error occurs among the members): it
subscribes to the aggregate, which fails with `e`, calls `reject(e)` and
nothing more, and never calls `gen.next` with a result for that suspend
point. -/
theorem onFulfilled_failed_member (W : World) (nested : Val → Val → Val) (ctx : Val)
    (g : Routine) (fuel : Nat) (s s1 : g.σ) (res agg : Val) (t0 : Nat) (e0 : Val)
    (hy : g.next s res = .ok (.yield agg s1)) (hagg : isAggregate agg = true)
    (hm : Val.rejected t0 e0 ∈ (members agg).map (toPromise nested ctx)) :
    ∃ i t e, failsFirst ((members agg).map (toPromise nested ctx)) i t e ∧
      ((∀ t1 e1, Val.rejected t1 e1 ∈ (members agg).map (toPromise nested ctx) → e1 = e0) →
        e = e0) ∧
      onFulfilled W (specEnv nested) ctx g (fuel + 1) s res
        = Run.rest [.resume res, .normalise agg, .subscribe (.rejected t e), .reject e] ∧
      resumes (onFulfilled W (specEnv nested) ctx g (fuel + 1) s res).events = [res] ∧
      completions (onFulfilled W (specEnv nested) ctx g (fuel + 1) s res).events
        = [.failure e] := by
  obtain ⟨t, e, hff⟩ := firstFailure_isSome _ t0 e0 hm
  obtain ⟨i, hfirst⟩ := firstFailure_failsFirst _ t e hff
  have hp : toPromise nested ctx agg = .rejected t e := by
    rw [toPromise_aggregate nested ctx agg hagg, hff]
  have heq : onFulfilled W (specEnv nested) ctx g (fuel + 1) s res
        = Run.rest [.resume res, .normalise agg, .subscribe (.rejected t e), .reject e] := by
    rw [onFulfilled, hy]
    simp only [next, specEnv, hp, truthy, isPromise, thenOf, settle, Option.isSome_some,
      Bool.and_self, if_true, Option.getD_some]
    rfl
  refine ⟨i, t, e, hfirst, ?_, heq, ?_, ?_⟩
  · intro hall
    exact hall t e (mem_of_getElem? _ i _ hfirst.1)
  · rw [heq]
    rfl
  · rw [heq]
    rfl

/-- The member that fails first is determined by the members. -/
theorem failsFirst_unique (ms : List Val) (i j t u : Nat) (e f : Val)
    (h1 : failsFirst ms i t e) (h2 : failsFirst ms j u f) : i = j ∧ t = u ∧ e = f := by
  obtain ⟨a1, b1⟩ := h1
  obtain ⟨a2, b2⟩ := h2
  have c1 := b1 j u f a2
  have c2 := b2 i t e a1
  have hij : i = j := by omega
  subst hij
  rw [a1] at a2
  simp only [Option.some.injEq, Val.rejected.injEq] at a2
  exact ⟨rfl, a2.1, a2.2⟩

theorem onFulfilled_failed_member_witness :
    (yieldsForever (.arr [.rejected 4 (.str "late"), .fulfilled 0 (.num 1),
        .rejected 2 (.str "boom")])).next () .undefined
      = .ok (.yield (.arr [.rejected 4 (.str "late"), .fulfilled 0 (.num 1),
          .rejected 2 (.str "boom")]) ()) ∧
    onFulfilled sampleWorld sampleEnv .null
        (yieldsForever (.arr [.rejected 4 (.str "late"), .fulfilled 0 (.num 1),
          .rejected 2 (.str "boom")])) 1 () .undefined
      = Run.rest [.resume .undefined,
          .normalise (.arr [.rejected 4 (.str "late"), .fulfilled 0 (.num 1),
            .rejected 2 (.str "boom")]),
          .subscribe (.rejected 2 (.str "boom")), .reject (.str "boom")] ∧
    ∃ i t e,
      failsFirst ((members (.arr [.rejected 4 (.str "late"), .fulfilled 0 (.num 1),
          .rejected 2 (.str "boom")])).map (toPromise (fun _ _ => .pending) .null)) i t e ∧
        completions (onFulfilled sampleWorld (specEnv fun _ _ => .pending) .null
          (yieldsForever (.arr [.rejected 4 (.str "late"), .fulfilled 0 (.num 1),
            .rejected 2 (.str "boom")])) (0 + 1) () .undefined).events = [.failure e] :=
  have h := onFulfilled_failed_member sampleWorld (fun _ _ => .pending) .null
    (yieldsForever (.arr [.rejected 4 (.str "late"), .fulfilled 0 (.num 1),
      .rejected 2 (.str "boom")])) 0 () () .undefined
    (.arr [.rejected 4 (.str "late"), .fulfilled 0 (.num 1), .rejected 2 (.str "boom")])
    4 (.str "late") rfl rfl (by simp [members, toPromise])
  ⟨rfl, rfl,
    match h with
    | ⟨i, t, e, h1, _, _, _, h5⟩ => ⟨i, t, e, h1, h5⟩⟩

/-- The predicate `sequential` excludes a second subscription made while one is
outstanding, and a `gen.next` call with a value other than the one the promise
subscribed to fulfilled with. -/
theorem sequential_excludes :
    ¬ sequential sampleEnv .null
        [.resume .undefined, .normalise (.fulfilled 0 (.num 1)),
          .subscribe (.fulfilled 0 (.num 1)), .normalise (.fulfilled 0 (.num 2)),
          .subscribe (.fulfilled 0 (.num 2))] ∧
      ¬ sequential sampleEnv .null
        [.resume .undefined, .normalise (.fulfilled 0 (.num 1)),
          .subscribe (.fulfilled 0 (.num 1)), .resume (.num 9)] := by
  constructor <;>
    simp [sequential, chained, mayFollow, answers, sampleEnv, specEnv, settle, thenOf]

/-- The normaliser of the spec makes no awaitable of a value that is neither a
function, nor a generator object, nor a promise, nor an aggregate. -/
theorem specEnv_not_awaitable (nested : Val → Val → Val) (ctx v : Val)
    (hfn : isFunction v = false) (hgen : hasCallableNext v = false)
    (hthen : thenOf v = none) (hagg : isAggregate v = false) :
    awaitable (specEnv nested) ctx v = false := by
  cases v <;>
    simp_all [awaitable, specEnv, toPromise, isPromise, thenOf, isFunction, hasCallableNext,
      isAggregate]

end Co
